import Mathlib

/-!
Shallow embedding of `src/Cxx11/transpose-vector-raja.cc` (Parallel Research
Kernels, C++11/RAJA matrix transpose).

Doubles are modelled as exact rationals (all values produced by the program
are sums of integers and halves, far below any double rounding boundary for
the algebra of the validated formula).  The two buffers `A` and `B` are modelled
as total functions `ℕ → ℚ`; the program only ever accesses indices below
`order*order` (proved below), so the behaviour beyond that bound is
irrelevant junk carried by the model.  RAJA `forallN` / nested `forall`
loops are modelled as folds over explicit lists of index pairs; the tiled
policy becomes a tiled enumeration of the same pairs.
-/

/-- The two matrix buffers of the program (`std::vector<double> A, B`). -/
@[ext]
structure St where
  A : ℕ → ℚ
  B : ℕ → ℚ

/-- Source: `const int tile_size = 32;` -/
def tile_size : ℕ := 32

/-- The linear index expression `i*order+j` used throughout the program. -/
def idx (order i j : ℕ) : ℕ := i * order + j

/-- Decode a linear index and re-encode it transposed:
`m = j*order+i ↦ i*order+j` (the cell of `A` read when cell `m` of `B` is
updated, expressed directly on linear indices). -/
def transposeIdx (order m : ℕ) : ℕ := (m % order) * order + m / order

/-- Freshly `resize`d buffers: `std::vector<double>` value-initialises to 0. -/
def fresh : St := { A := fun _ => 0, B := fun _ => 0 }

/-- The transpose loop body at index pair `p = (i, j)`:
`B[i*order+j] += A[j*order+i]; A[j*order+i] += 1.0;`
(the read of `A` happens before the increment, so both right-hand sides use
the incoming state). -/
def tbody (order : ℕ) (st : St) (p : ℕ × ℕ) : St :=
  { A := Function.update st.A (idx order p.2 p.1) (st.A (idx order p.2 p.1) + 1),
    B := Function.update st.B (idx order p.1 p.2)
           (st.B (idx order p.1 p.2) + st.A (idx order p.2 p.1)) }

/-- The initialisation loop body at index pair `p = (i, j)`:
`A[i*order+j] = (double)(i*order+j); B[i*order+j] = 0.0;` -/
def ibody (order : ℕ) (st : St) (p : ℕ × ℕ) : St :=
  { A := Function.update st.A (idx order p.1 p.2) ((idx order p.1 p.2 : ℕ) : ℚ),
    B := Function.update st.B (idx order p.1 p.2) 0 }

/-- Run the transpose body over a list of index pairs, in order. -/
def applyPairs (order : ℕ) (st : St) (ps : List (ℕ × ℕ)) : St :=
  ps.foldl (tbody order) st

/-- Run the initialisation body over a list of index pairs, in order. -/
def initPairs (order : ℕ) (st : St) (ps : List (ℕ × ℕ)) : St :=
  ps.foldl (ibody order) st

/-- Row-major enumeration of `[0,order) × [0,order)`: the untiled
`forallN(range(0,order), range(0,order), ...)` iteration order. -/
def rowPairs (order : ℕ) : List (ℕ × ℕ) :=
  (List.range order).flatMap (fun i => (List.range order).map (fun j => (i, j)))

/-- Number of 32-wide tiles covering `[0, order)`. -/
def numTiles (order : ℕ) : ℕ := (order + tile_size - 1) / tile_size

/-- The indices of `[0, order)` lying in tile `t` (i.e. with `x / 32 = t`). -/
def tileRow (order t : ℕ) : List ℕ :=
  (List.range order).filter (fun x => x / tile_size == t)

/-- Tiled enumeration of `[0,order) × [0,order)`: the
`RAJA::Tile<TileList<tile_fixed<32>, tile_fixed<32>>>` policy iterates tile
by tile (outer tiles, then inner tiles, then the indices within each tile). -/
def tilePairs (order : ℕ) : List (ℕ × ℕ) :=
  (List.range (numTiles order)).flatMap (fun ti =>
    (List.range (numTiles order)).flatMap (fun tj =>
      (tileRow order ti).flatMap (fun i =>
        (tileRow order tj).map (fun j => (i, j)))))

/-- Kernel `Transpose<exec_policy>` (the `forallN` overload, untiled policies). -/
def TransposeN (order : ℕ) (st : St) : St := applyPairs order st (rowPairs order)

/-- Kernel `Transpose<exec_policy>` with a tiled nested policy
(`seq_for_seq_tiled` / `seq_for_simd_tiled`). -/
def TransposeTiled (order : ℕ) (st : St) : St := applyPairs order st (tilePairs order)

/-- Kernel `Transpose<outer_policy, inner_policy>` (the non-nested overload:
two nested `RAJA::forall` loops). -/
def TransposeFF (order : ℕ) (st : St) : St :=
  (List.range order).foldl
    (fun s i => ((List.range order).map (fun j => (i, j))).foldl (tbody order) s) st

/-- Kernel `Initialize<exec_policy>` (the `forallN` overload, untiled policies). -/
def InitializeN (order : ℕ) (st : St) : St := initPairs order st (rowPairs order)

/-- Kernel `Initialize<exec_policy>` with a tiled nested policy. -/
def InitializeTiled (order : ℕ) (st : St) : St := initPairs order st (tilePairs order)

/-- Kernel `Initialize<outer_policy, inner_policy>` (two nested `RAJA::forall`). -/
def InitializeFF (order : ℕ) (st : St) : St :=
  (List.range order).foldl
    (fun s i => ((List.range order).map (fun j => (i, j))).foldl (ibody order) s) st

/-- Iterate a kernel `k` times (the `for (iter = 0; iter <= iterations; ...)`
loop performs `iterations + 1` applications in total). -/
def runWith (f : St → St) : ℕ → St → St
  | 0, st => st
  | k + 1, st => f (runWith f k st)

/-- Exactly `k` applications of the (untiled, `forallN`) transpose kernel. -/
def runK (order k : ℕ) (st : St) : St := runWith (TransposeN order) k st

/-- Closed form used by the validator:
`addit = (iterations+1.)*(iterations/2.)` and
`reference = (double)ij * (1.+iterations) + addit` with `ij = i*order+j`. -/
def reference (order iterations i j : ℕ) : ℚ :=
  ((idx order i j : ℕ) : ℚ) * (1 + (iterations : ℚ)) +
    ((iterations : ℚ) + 1) * ((iterations : ℚ) / 2)

/-- Aggregate error accumulated by the validator:
`abserr += fabs(B[ji] - reference)` over all `(i,j)`, with `ji = j*order+i`. -/
def abserr (order iterations : ℕ) (st : St) : ℚ :=
  ((rowPairs order).map
    (fun p => |st.B (idx order p.2 p.1) - reference order iterations p.1 p.2|)).sum

/-- Source: `const auto epsilon = 1.0e-8;` -/
def epsilon : ℚ := 1 / 100000000

/-- The final validation step: exit code, printed message, and (on failure)
the reported pair of measured aggregate error and threshold. -/
def validate (e : ℚ) : ℕ × List Char × Option (ℚ × ℚ) :=
  if e < epsilon then (0, "Solution validates".toList, none)
  else (1, "ERROR: Aggregate squared error exceeds threshold".toList, some (e, epsilon))

/-- The runtime configuration resolved from the command line. -/
structure Config where
  use_for : List Char
  use_simd : Bool
  use_nested : Bool
  use_tiled : Bool
  use_permute : List Char
deriving DecidableEq

/-- Defaults: `use_for="seq"; use_permute="no"; use_simd=true; use_nested=true;
use_tiled=false;` -/
def defaultConfig : Config :=
  { use_for := "seq".toList, use_simd := true, use_nested := true,
    use_tiled := false, use_permute := "no".toList }

/-- Containment test `s.find(pat) != std::string::npos`: does `pat` occur as a contiguous
subsequence of `s`? -/
def hasSub (pat : List Char) : List Char → Bool
  | [] => pat.isPrefixOf ([] : List Char)
  | c :: rest => pat.isPrefixOf (c :: rest) || hasSub pat rest

/-- Effect of one token on `use_for`: `s.find("for=") != npos` tests substring
containment, then `sf = s.substr(4)` takes the suffix after position 4 and is
compared against `omp` / `openmp` / `tbb`; any other value leaves the old
setting. -/
def forUpdate (old : List Char) (s : List Char) : List Char :=
  if hasSub ("for=".toList) s then
    (let sf := s.drop 4
     let u := if sf = "omp".toList then "omp".toList else old
     let u := if sf = "openmp".toList then "omp".toList else u
     if sf = "tbb".toList then "tbb".toList else u)
  else old

/-- Effect of one token on `use_simd`: `simd=n` or `simd=np` disable it;
every other value leaves the old setting. -/
def simdUpdate (old : Bool) (s : List Char) : Bool :=
  if hasSub ("simd=".toList) s then
    (let ss := s.drop 5
     let u := if ss = "n".toList then false else old
     if ss = "np".toList then false else u)
  else old

/-- Effect of one token on `use_nested`: `nested=n` or `nested=no` disable it;
every other value leaves the old setting. -/
def nestedUpdate (old : Bool) (s : List Char) : Bool :=
  if hasSub ("nested=".toList) s then
    (let sn := s.drop 7
     let u := if sn = "n".toList then false else old
     if sn = "no".toList then false else u)
  else old

/-- Effect of one token on `use_tiled`: `tiled=y` or `tiled=yes` enable it;
every other value leaves the old setting. -/
def tiledUpdate (old : Bool) (s : List Char) : Bool :=
  if hasSub ("tiled=".toList) s then
    (let st := s.drop 6
     let u := if st = "y".toList then true else old
     if st = "yes".toList then true else u)
  else old

/-- Effect of one token on `use_permute`: `permute=ij` / `permute=ji` set it;
every other value leaves the old setting. -/
def permuteUpdate (old : List Char) (s : List Char) : List Char :=
  if hasSub ("permute=".toList) s then
    (let sp := s.drop 8
     let u := if sp = "ij".toList then "ij".toList else old
     if sp = "ji".toList then "ji".toList else u)
  else old

/-- One pass of the flag-parsing loop body on a single `argv[i]` token:
the five `find`-based checks run in sequence, each updating its own
variable. -/
def applyToken (cfg : Config) (s : List Char) : Config :=
  { use_for := forUpdate cfg.use_for s,
    use_simd := simdUpdate cfg.use_simd s,
    use_nested := nestedUpdate cfg.use_nested s,
    use_tiled := tiledUpdate cfg.use_tiled s,
    use_permute := permuteUpdate cfg.use_permute s }

/-- The whole flag-parsing loop `for (int i=3; i<argc; ++i)` starting from
the default configuration. -/
def parseFlags (args : List (List Char)) : Config :=
  args.foldl applyToken defaultConfig

/-- Value of `INT_MAX` for 32-bit `int`. -/
def intMax : ℤ := 2147483647

/-- Value of `std::floor(std::sqrt(INT_MAX))`: `sqrt(2147483647.0) ≈ 46340.95`,
whose floor is 46340 (and indeed `46340^2 ≤ INT_MAX < 46341^2`). -/
def maxOrder : ℤ := 46340

/-- Outcome of `main`: either an early exit from the argument-checking
`try/catch` (no buffers ever exist), or a completed run carrying the final
buffers and the validation outcome. -/
inductive MainResult where
  | earlyExit (msg : List Char) (code : ℕ) : MainResult
  | ran (fin : St) (e : ℚ) (code : ℕ) : MainResult

/-- The transpose kernel variant selected by the configuration (all backends
compute the same sequence of updates; only scheduling differs). -/
def stepOf (cfg : Config) (order : ℕ) : St → St :=
  if cfg.use_nested then
    (if cfg.use_tiled then TransposeTiled order else TransposeN order)
  else TransposeFF order

/-- The initialisation variant selected by the configuration. -/
def initOf (cfg : Config) (order : ℕ) : St → St :=
  if cfg.use_nested then
    (if cfg.use_tiled then InitializeTiled order else InitializeN order)
  else InitializeFF order

/-- A full run from a resolved configuration: initialise fresh buffers,
apply the kernel `iterations + 1` times (warm-up plus timed iterations),
then validate.  Returns the final buffers together with the validation
outcome (exit code, message, reported values). -/
def fullRun (cfg : Config) (order iterations : ℕ) : St × (ℕ × List Char × Option (ℚ × ℚ)) :=
  (runWith (stepOf cfg order) (iterations + 1) (initOf cfg order fresh),
   validate (abserr order iterations
     (runWith (stepOf cfg order) (iterations + 1) (initOf cfg order fresh))))

/-- The argument-checking and dispatch structure of `main`.
`nPositional` is the number of positional arguments supplied (`argc - 1`
counts them together with the flags; the check `argc < 3` is the check
`nPositional < 2`); `iterations` and `order` are the `atoi` values of the
first two. -/
def mainRun (nPositional : ℕ) (iterations order : ℤ) (flags : List (List Char)) :
    MainResult :=
  if nPositional < 2 then
    MainResult.earlyExit ("Usage: <# iterations> <matrix order> <nested=\x7by,n\x7d for=\x7bseq,omp,tbb\x7d simd=\x7by,n\x7d>".toList) 1
  else if iterations < 1 then
    MainResult.earlyExit ("ERROR: iterations must be >= 1".toList) 1
  else if order ≤ 0 then
    MainResult.earlyExit ("ERROR: Matrix Order must be greater than 0".toList) 1
  else if maxOrder < order then
    MainResult.earlyExit ("ERROR: matrix dimension too large - overflow risk".toList) 1
  else
    (let cfg := parseFlags flags
     let o := order.toNat
     let fin := (fullRun cfg o iterations.toNat).1
     let v := validate (abserr o iterations.toNat fin)
     MainResult.ran fin (abserr o iterations.toNat fin) v.1)

/-- Equality of configurations on every field except `use_permute`. -/
def sameCore (c1 c2 : Config) : Prop :=
  c1.use_for = c2.use_for ∧ c1.use_simd = c2.use_simd ∧
    c1.use_nested = c2.use_nested ∧ c1.use_tiled = c2.use_tiled

/-! ### Arithmetic helpers for the linear indexing scheme -/

lemma encode_mod (order x y : ℕ) (hy : y < order) : (x * order + y) % order = y := by
  rw [mul_comm, Nat.mul_add_mod]
  exact Nat.mod_eq_of_lt hy

lemma encode_div (order x y : ℕ) (hy : y < order) : (x * order + y) / order = x := by
  have h0 : 0 < order := lt_of_le_of_lt (Nat.zero_le y) hy
  rw [mul_comm, Nat.mul_add_div h0, Nat.div_eq_of_lt hy, add_zero]

lemma decodeA_eq (order : ℕ) (p : ℕ × ℕ) (hp1 : p.1 < order) (m : ℕ) :
    m = idx order p.2 p.1 ↔ (m % order, m / order) = p := by
  constructor
  · rintro rfl
    simp [idx, encode_mod order p.2 p.1 hp1, encode_div order p.2 p.1 hp1]
  · intro h
    have h1 : m % order = p.1 := by rw [← h]
    have h2 : m / order = p.2 := by rw [← h]
    rw [idx, ← h1, ← h2, mul_comm]
    exact (Nat.div_add_mod m order).symm

lemma decodeB_eq (order : ℕ) (p : ℕ × ℕ) (hp2 : p.2 < order) (m : ℕ) :
    m = idx order p.1 p.2 ↔ (m / order, m % order) = p := by
  constructor
  · rintro rfl
    simp [idx, encode_mod order p.1 p.2 hp2, encode_div order p.1 p.2 hp2]
  · intro h
    have h1 : m / order = p.1 := by rw [← h]
    have h2 : m % order = p.2 := by rw [← h]
    rw [idx, ← h1, ← h2, mul_comm]
    exact (Nat.div_add_mod m order).symm

lemma encode_lt (order x y : ℕ) (hx : x < order) (hy : y < order) :
    x * order + y < order * order := by
  have h1 : x + 1 ≤ order := hx
  calc x * order + y < x * order + order := by omega
    _ = (x + 1) * order := by ring
    _ ≤ order * order := Nat.mul_le_mul_right order h1

lemma div_mod_lt_iff (order m : ℕ) :
    (m % order < order ∧ m / order < order) ↔ m < order * order := by
  rcases Nat.eq_zero_or_pos order with h | h
  · subst h; simp
  · have hm : m % order < order := Nat.mod_lt _ h
    rw [Nat.div_lt_iff_lt_mul h]
    simp [hm]

/-! ### The iteration-space enumerations -/

lemma mem_rowPairs (order : ℕ) (p : ℕ × ℕ) :
    p ∈ rowPairs order ↔ p.1 < order ∧ p.2 < order := by
  cases p with
  | mk i j => simp [rowPairs]

lemma nodup_flatMap_key {α β : Type} (l : List α) (f : α → List β) (g : β → α)
    (hl : l.Nodup) (hf : ∀ a, (f a).Nodup) (hg : ∀ a, ∀ b ∈ f a, g b = a) :
    (l.flatMap f).Nodup := by
  rw [List.nodup_flatMap]
  refine ⟨fun a _ => hf a, ?_⟩
  refine hl.imp ?_
  intro a b hab
  simp only [Function.onFun]
  intro x hxa hxb
  exact hab ((hg a x hxa).symm.trans (hg b x hxb))

lemma nodup_rowPairs (order : ℕ) : (rowPairs order).Nodup := by
  apply nodup_flatMap_key _ _ Prod.fst (List.nodup_range _)
  · intro a
    refine List.Nodup.map ?_ (List.nodup_range _)
    intro x y hxy
    exact congrArg Prod.snd hxy
  · intro a b hb
    simp only [List.mem_map] at hb
    obtain ⟨j, _, rfl⟩ := hb
    rfl

lemma mem_tileRow (order t x : ℕ) :
    x ∈ tileRow order t ↔ x < order ∧ x / tile_size = t := by
  simp [tileRow, List.mem_filter]

lemma div_lt_numTiles (order x : ℕ) (h : x < order) :
    x / tile_size < numTiles order := by
  have h1 : 1 ≤ order := by omega
  have e : order + tile_size - 1 = (order - 1) + tile_size := by
    have : (32 : ℕ) = tile_size := rfl
    omega
  have e2 : numTiles order = (order - 1) / tile_size + 1 := by
    rw [numTiles, e, Nat.add_div_right _ (by norm_num [tile_size])]
  rw [e2]
  exact Nat.lt_succ_of_le (Nat.div_le_div_right (by omega))

lemma mem_tilePairs (order : ℕ) (p : ℕ × ℕ) :
    p ∈ tilePairs order ↔ p.1 < order ∧ p.2 < order := by
  cases p with
  | mk i j =>
    simp only [tilePairs, List.mem_flatMap, List.mem_map, List.mem_range, mem_tileRow]
    constructor
    · rintro ⟨ti, _, tj, _, i', ⟨hi', _⟩, j', ⟨hj', _⟩, hpair⟩
      obtain ⟨rfl, rfl⟩ := Prod.mk.injEq .. ▸ hpair
      exact ⟨hi', hj'⟩
    · rintro ⟨hi, hj⟩
      exact ⟨i / tile_size, div_lt_numTiles order i hi,
             j / tile_size, div_lt_numTiles order j hj,
             i, ⟨hi, rfl⟩, j, ⟨hj, rfl⟩, rfl⟩

lemma nodup_tilePairs (order : ℕ) : (tilePairs order).Nodup := by
  apply nodup_flatMap_key _ _ (fun p => p.1 / tile_size) (List.nodup_range _)
  · intro ti
    apply nodup_flatMap_key _ _ (fun p => p.2 / tile_size) (List.nodup_range _)
    · intro tj
      apply nodup_flatMap_key _ _ Prod.fst
        (List.Nodup.filter _ (List.nodup_range _))
      · intro i
        refine List.Nodup.map ?_ (List.Nodup.filter _ (List.nodup_range _))
        intro x y hxy
        exact congrArg Prod.snd hxy
      · intro i b hb
        simp only [List.mem_map] at hb
        obtain ⟨j, _, rfl⟩ := hb
        rfl
    · intro tj b hb
      simp only [List.mem_flatMap, List.mem_map, mem_tileRow] at hb
      obtain ⟨i, _, j, ⟨_, hj⟩, rfl⟩ := hb
      exact hj
  · intro ti b hb
    simp only [List.mem_flatMap, List.mem_map, mem_tileRow] at hb
    obtain ⟨tj, _, i, ⟨_, hi⟩, j, _, rfl⟩ := hb
    exact hi

/-! ### Pointwise effect of the loop bodies -/

lemma tbody_A (order : ℕ) (st : St) (p : ℕ × ℕ) (x : ℕ) :
    (tbody order st p).A x =
      if x = idx order p.2 p.1 then st.A (idx order p.2 p.1) + 1 else st.A x := by
  simp [tbody, Function.update_apply]

lemma tbody_B (order : ℕ) (st : St) (p : ℕ × ℕ) (x : ℕ) :
    (tbody order st p).B x =
      if x = idx order p.1 p.2 then
        st.B (idx order p.1 p.2) + st.A (idx order p.2 p.1)
      else st.B x := by
  simp [tbody, Function.update_apply]

/-- Effect of running the transpose body over any duplicate-free list of
in-bounds index pairs: each cell `m = j*order+i` of `A` named by some pair
`(i,j)` of the list is incremented once, and each cell `m = i*order+j` of `B`
named by some pair receives the (pre-loop) value `A[j*order+i]`. -/
lemma applyPairs_spec (order : ℕ) :
    ∀ (ps : List (ℕ × ℕ)) (st : St), ps.Nodup →
      (∀ p ∈ ps, p.1 < order ∧ p.2 < order) → ∀ m,
      ((applyPairs order st ps).A m =
        if (m % order, m / order) ∈ ps then st.A m + 1 else st.A m) ∧
      ((applyPairs order st ps).B m =
        if (m / order, m % order) ∈ ps then
          st.B m + st.A (transposeIdx order m)
        else st.B m) := by
  intro ps
  induction ps with
  | nil => intro st _ _ m; simp [applyPairs]
  | cons p ps ih =>
    intro st hnd hbd m
    have hp : p.1 < order ∧ p.2 < order := hbd p (List.mem_cons_self p ps)
    have hnotin : p ∉ ps := (List.nodup_cons.mp hnd).1
    have hnd' : ps.Nodup := (List.nodup_cons.mp hnd).2
    have hbd' : ∀ q ∈ ps, q.1 < order ∧ q.2 < order :=
      fun q hq => hbd q (List.mem_cons_of_mem p hq)
    have hfold : applyPairs order st (p :: ps) = applyPairs order (tbody order st p) ps := rfl
    have ihm := ih (tbody order st p) hnd' hbd' m
    constructor
    · rw [hfold, ihm.1]
      by_cases hc : (m % order, m / order) = p
      · have hm : m = idx order p.2 p.1 := (decodeA_eq order p hp.1 m).mpr hc
        have hni : (m % order, m / order) ∉ ps := by rw [hc]; exact hnotin
        rw [if_neg hni, if_pos (by rw [hc]; exact List.mem_cons_self p ps),
            tbody_A, if_pos hm, ← hm]
      · have hm : m ≠ idx order p.2 p.1 := fun h => hc ((decodeA_eq order p hp.1 m).mp h)
        have hA : (tbody order st p).A m = st.A m := by rw [tbody_A, if_neg hm]
        by_cases hin : (m % order, m / order) ∈ ps
        · rw [if_pos hin, hA, if_pos (List.mem_cons_of_mem p hin)]
        · rw [if_neg hin, hA, if_neg (by simp [List.mem_cons, hc, hin])]
    · rw [hfold, ihm.2]
      by_cases hc : (m / order, m % order) = p
      · have hm : m = idx order p.1 p.2 := (decodeB_eq order p hp.2 m).mpr hc
        have hni : (m / order, m % order) ∉ ps := by rw [hc]; exact hnotin
        rw [if_neg hni, if_pos (by rw [hc]; exact List.mem_cons_self p ps),
            tbody_B, if_pos hm, ← hm]
        have e : transposeIdx order m = idx order p.2 p.1 := by
          show m % order * order + m / order = p.2 * order + p.1
          rw [hm, idx, encode_mod order p.1 p.2 hp.2, encode_div order p.1 p.2 hp.2]
        rw [e]
      · have hm1 : m ≠ idx order p.1 p.2 := fun h => hc ((decodeB_eq order p hp.2 m).mp h)
        have hB : (tbody order st p).B m = st.B m := by rw [tbody_B, if_neg hm1]
        by_cases hin : (m / order, m % order) ∈ ps
        · have hq := hbd' _ hin
          have hc2 : transposeIdx order m ≠ idx order p.2 p.1 := by
            intro h
            apply hc
            have f1 : m / order = p.1 := by
              have h2 := congrArg (fun x => x % order) h
              simpa [transposeIdx, idx, encode_mod order (m % order) (m / order) hq.1,
                encode_mod order p.2 p.1 hp.1] using h2
            have f2 : m % order = p.2 := by
              have h2 := congrArg (fun x => x / order) h
              simpa [transposeIdx, idx, encode_div order (m % order) (m / order) hq.1,
                encode_div order p.2 p.1 hp.1] using h2
            rw [Prod.ext_iff]
            exact ⟨f1, f2⟩
          have hA2 : (tbody order st p).A (transposeIdx order m) =
              st.A (transposeIdx order m) := by rw [tbody_A, if_neg hc2]
          rw [if_pos hin, hB, hA2, if_pos (List.mem_cons_of_mem p hin)]
        · rw [if_neg hin, hB, if_neg (by simp [List.mem_cons, hc, hin])]

lemma ibody_A (order : ℕ) (st : St) (p : ℕ × ℕ) (x : ℕ) :
    (ibody order st p).A x =
      if x = idx order p.1 p.2 then ((idx order p.1 p.2 : ℕ) : ℚ) else st.A x := by
  simp [ibody, Function.update_apply]

lemma ibody_B (order : ℕ) (st : St) (p : ℕ × ℕ) (x : ℕ) :
    (ibody order st p).B x = if x = idx order p.1 p.2 then 0 else st.B x := by
  simp [ibody, Function.update_apply]

/-- Effect of the initialisation body over any list of in-bounds index pairs:
each cell named by some pair `(i,j)` holds `A[m] = m` and `B[m] = 0`
afterwards (the written value equals the linear index of the cell itself, so even
revisiting a cell rewrites the same value). -/
lemma initPairs_spec (order : ℕ) :
    ∀ (ps : List (ℕ × ℕ)) (st : St),
      (∀ p ∈ ps, p.1 < order ∧ p.2 < order) → ∀ m,
      ((initPairs order st ps).A m =
        if (m / order, m % order) ∈ ps then ((m : ℕ) : ℚ) else st.A m) ∧
      ((initPairs order st ps).B m =
        if (m / order, m % order) ∈ ps then 0 else st.B m) := by
  intro ps
  induction ps with
  | nil => intro st _ m; simp [initPairs]
  | cons p ps ih =>
    intro st hbd m
    have hp : p.1 < order ∧ p.2 < order := hbd p (List.mem_cons_self p ps)
    have hbd' : ∀ q ∈ ps, q.1 < order ∧ q.2 < order :=
      fun q hq => hbd q (List.mem_cons_of_mem p hq)
    have hfold : initPairs order st (p :: ps) = initPairs order (ibody order st p) ps := rfl
    have ihm := ih (ibody order st p) hbd' m
    constructor
    · rw [hfold, ihm.1]
      by_cases hin : (m / order, m % order) ∈ ps
      · rw [if_pos hin, if_pos (List.mem_cons_of_mem p hin)]
      · by_cases hc : (m / order, m % order) = p
        · have hm : m = idx order p.1 p.2 := (decodeB_eq order p hp.2 m).mpr hc
          rw [if_neg hin, if_pos (by rw [hc]; exact List.mem_cons_self p ps),
              ibody_A, if_pos hm, ← hm]
        · have hm : m ≠ idx order p.1 p.2 := fun h => hc ((decodeB_eq order p hp.2 m).mp h)
          rw [if_neg hin, ibody_A, if_neg hm, if_neg (by simp [List.mem_cons, hc, hin])]
    · rw [hfold, ihm.2]
      by_cases hin : (m / order, m % order) ∈ ps
      · rw [if_pos hin, if_pos (List.mem_cons_of_mem p hin)]
      · by_cases hc : (m / order, m % order) = p
        · have hm : m = idx order p.1 p.2 := (decodeB_eq order p hp.2 m).mpr hc
          rw [if_neg hin, if_pos (by rw [hc]; exact List.mem_cons_self p ps),
              ibody_B, if_pos hm]
        · have hm : m ≠ idx order p.1 p.2 := fun h => hc ((decodeB_eq order p hp.2 m).mp h)
          rw [if_neg hin, ibody_B, if_neg hm, if_neg (by simp [List.mem_cons, hc, hin])]

/-! ### Closed forms for one kernel application -/

lemma decodeA_mem_iff (order m : ℕ) :
    ((m % order, m / order) ∈ rowPairs order) ↔ m < order * order := by
  rw [mem_rowPairs, div_mod_lt_iff]

lemma decodeB_mem_iff (order m : ℕ) :
    ((m / order, m % order) ∈ rowPairs order) ↔ m < order * order := by
  rw [mem_rowPairs, and_comm, div_mod_lt_iff]

lemma decodeA_mem_tile_iff (order m : ℕ) :
    ((m % order, m / order) ∈ tilePairs order) ↔ m < order * order := by
  rw [mem_tilePairs, div_mod_lt_iff]

lemma decodeB_mem_tile_iff (order m : ℕ) :
    ((m / order, m % order) ∈ tilePairs order) ↔ m < order * order := by
  rw [mem_tilePairs, and_comm, div_mod_lt_iff]

lemma TransposeN_A (order : ℕ) (st : St) (m : ℕ) :
    (TransposeN order st).A m = if m < order * order then st.A m + 1 else st.A m := by
  have h := (applyPairs_spec order (rowPairs order) st (nodup_rowPairs order)
    (fun p hp => (mem_rowPairs order p).mp hp) m).1
  rw [TransposeN, h]
  simp only [decodeA_mem_iff]

lemma TransposeN_B (order : ℕ) (st : St) (m : ℕ) :
    (TransposeN order st).B m =
      if m < order * order then st.B m + st.A (transposeIdx order m) else st.B m := by
  have h := (applyPairs_spec order (rowPairs order) st (nodup_rowPairs order)
    (fun p hp => (mem_rowPairs order p).mp hp) m).2
  rw [TransposeN, h]
  simp only [decodeB_mem_iff]

lemma TransposeTiled_eq (order : ℕ) (st : St) :
    TransposeTiled order st = TransposeN order st := by
  have ht := applyPairs_spec order (tilePairs order) st (nodup_tilePairs order)
    (fun p hp => (mem_tilePairs order p).mp hp)
  apply St.ext
  · funext m
    rw [show (TransposeTiled order st).A m = _ from (ht m).1, TransposeN_A]
    simp only [decodeA_mem_tile_iff]
  · funext m
    rw [show (TransposeTiled order st).B m = _ from (ht m).2, TransposeN_B]
    simp only [decodeB_mem_tile_iff]

lemma foldl_flatMap {α β σ : Type} (g : σ → β → σ) (l : List α) (f : α → List β) (s : σ) :
    (l.flatMap f).foldl g s = l.foldl (fun t a => (f a).foldl g t) s := by
  induction l generalizing s with
  | nil => rfl
  | cons a l ih => simp [List.flatMap_cons, List.foldl_append, ih]

lemma TransposeFF_eq (order : ℕ) (st : St) :
    TransposeFF order st = TransposeN order st := by
  rw [TransposeN, applyPairs, rowPairs, foldl_flatMap]
  rfl

lemma InitializeN_A (order : ℕ) (st : St) (m : ℕ) :
    (InitializeN order st).A m = if m < order * order then ((m : ℕ) : ℚ) else st.A m := by
  have h := (initPairs_spec order (rowPairs order) st
    (fun p hp => (mem_rowPairs order p).mp hp) m).1
  rw [InitializeN, h]
  simp only [decodeB_mem_iff]

lemma InitializeN_B (order : ℕ) (st : St) (m : ℕ) :
    (InitializeN order st).B m = if m < order * order then 0 else st.B m := by
  have h := (initPairs_spec order (rowPairs order) st
    (fun p hp => (mem_rowPairs order p).mp hp) m).2
  rw [InitializeN, h]
  simp only [decodeB_mem_iff]

lemma InitializeTiled_eq (order : ℕ) (st : St) :
    InitializeTiled order st = InitializeN order st := by
  have ht := initPairs_spec order (tilePairs order) st
    (fun p hp => (mem_tilePairs order p).mp hp)
  apply St.ext
  · funext m
    rw [show (InitializeTiled order st).A m = _ from (ht m).1, InitializeN_A]
    simp only [decodeB_mem_tile_iff]
  · funext m
    rw [show (InitializeTiled order st).B m = _ from (ht m).2, InitializeN_B]
    simp only [decodeB_mem_tile_iff]

lemma InitializeFF_eq (order : ℕ) (st : St) :
    InitializeFF order st = InitializeN order st := by
  rw [InitializeN, initPairs, rowPairs, foldl_flatMap]
  rfl

/-! ### The cross-iteration invariant and the validation formula -/

lemma transposeIdx_lt (order m : ℕ) (hm : m < order * order) :
    transposeIdx order m < order * order := by
  have h := (div_mod_lt_iff order m).mpr hm
  exact encode_lt order (m % order) (m / order) h.1 h.2

lemma runK_A (order k : ℕ) (st : St) (m : ℕ) (hm : m < order * order) :
    (runK order k (InitializeN order st)).A m = (m : ℚ) + k := by
  induction k with
  | zero => simp [runK, runWith, InitializeN_A, hm]
  | succ k ih =>
    show (TransposeN order (runK order k (InitializeN order st))).A m = _
    rw [TransposeN_A, if_pos hm, ih]
    push_cast
    ring

lemma runK_B (order k : ℕ) (st : St) (m : ℕ) (hm : m < order * order) :
    (runK order k (InitializeN order st)).B m =
      (k : ℚ) * ((transposeIdx order m : ℕ) : ℚ) + (k : ℚ) * ((k : ℚ) - 1) / 2 := by
  induction k with
  | zero => simp [runK, runWith, InitializeN_B, hm]
  | succ k ih =>
    show (TransposeN order (runK order k (InitializeN order st))).B m = _
    rw [TransposeN_B, if_pos hm, ih,
        runK_A order k st (transposeIdx order m) (transposeIdx_lt order m hm)]
    push_cast
    ring

lemma transposeIdx_idx (order i j : ℕ) (hi : i < order) (hj : j < order) :
    transposeIdx order (idx order j i) = idx order i j := by
  show (idx order j i) % order * order + (idx order j i) / order = idx order i j
  rw [idx, encode_mod order j i hi, encode_div order j i hi, idx]

lemma abserr_final (order iterations : ℕ) (st : St) :
    abserr order iterations (runK order (iterations + 1) (InitializeN order st)) = 0 := by
  rw [abserr]
  apply List.sum_eq_zero
  intro x hx
  simp only [List.mem_map] at hx
  obtain ⟨p, hp, rfl⟩ := hx
  have hb := (mem_rowPairs order p).mp hp
  have hlt : idx order p.2 p.1 < order * order := encode_lt order p.2 p.1 hb.2 hb.1
  rw [runK_B order (iterations + 1) st _ hlt,
      transposeIdx_idx order p.1 p.2 hb.1 hb.2, reference, abs_eq_zero]
  push_cast
  ring

/-! ### Claim theorems: the kernel and validator -/

/-- C1: for every `order ≥ 1` and `iterations ≥ 1`, after `Initialize`
followed by `iterations + 1` total applications of the transpose kernel
(warm-up iteration 0 plus timed iterations `1..iterations`), every cell
`B[j*order+i]` equals `reference(i,j) = (i*order+j)*(1+iterations) +
(iterations+1)*iterations/2`, so the aggregate sum (computed by the validator) of absolute
differences is 0, below the `1e-8` threshold, and validation passes
(exit code 0). -/
theorem C1_transpose_validates (order iterations : ℕ)
    (ho : 1 ≤ order) (hit : 1 ≤ iterations) :
    (∀ i j, i < order → j < order →
      (runK order (iterations + 1) (InitializeN order fresh)).B (idx order j i) =
        reference order iterations i j) ∧
    abserr order iterations (runK order (iterations + 1) (InitializeN order fresh)) = 0 ∧
    abserr order iterations (runK order (iterations + 1) (InitializeN order fresh)) < epsilon ∧
    (validate (abserr order iterations
      (runK order (iterations + 1) (InitializeN order fresh)))).1 = 0 := by
  have habs := abserr_final order iterations fresh
  refine ⟨?_, habs, ?_, ?_⟩
  · intro i j hi hj
    have hlt : idx order j i < order * order := encode_lt order j i hj hi
    rw [runK_B order (iterations + 1) fresh _ hlt,
        transposeIdx_idx order i j hi hj, reference]
    push_cast
    ring
  · rw [habs, epsilon]
    norm_num
  · rw [habs, validate, if_pos (by rw [epsilon]; norm_num)]

theorem C1_transpose_validates_witness :
    abserr 1 1 (runK 1 2 (InitializeN 1 fresh)) = 0 :=
  (C1_transpose_validates 1 1 (by norm_num) (by norm_num)).2.1

/-- C2: a single application of the transpose kernel increments every linear
index of `A` below `order*order` exactly once, and after `n` total
applications following `Initialize`, `A[j*order+i] = (j*order+i) + n` for all
`(i,j)`; in particular on the diagonal `A[i*order+i] = i*order+i + n`. -/
theorem C2_A_increment (order n : ℕ) (st : St) :
    (∀ m, m < order * order → (TransposeN order st).A m = st.A m + 1) ∧
    (∀ i j, i < order → j < order →
      (runK order n (InitializeN order st)).A (idx order j i) =
        ((idx order j i : ℕ) : ℚ) + n) ∧
    (∀ i, i < order →
      (runK order n (InitializeN order st)).A (idx order i i) =
        ((idx order i i : ℕ) : ℚ) + n) := by
  refine ⟨?_, ?_, ?_⟩
  · intro m hm
    rw [TransposeN_A, if_pos hm]
  · intro i j hi hj
    exact runK_A order n st _ (encode_lt order j i hj hi)
  · intro i hi
    exact runK_A order n st _ (encode_lt order i i hi hi)

theorem C2_A_increment_witness : (TransposeN 1 fresh).A 0 = fresh.A 0 + 1 :=
  (C2_A_increment 1 0 fresh).1 0 (by norm_num)

/-- C3: the tiled and untiled execution variants, and the nested (`forallN`)
and non-nested (two `forall`) overloads, compute identical final states —
for one application and for any number of repeated applications — and the
same holds for the `Initialize` overloads. -/
theorem C3_variant_equivalence (order : ℕ) (st : St) :
    TransposeTiled order st = TransposeN order st ∧
    TransposeFF order st = TransposeN order st ∧
    (∀ k, runWith (TransposeTiled order) k st = runWith (TransposeN order) k st) ∧
    (∀ k, runWith (TransposeFF order) k st = runWith (TransposeN order) k st) ∧
    InitializeTiled order st = InitializeN order st ∧
    InitializeFF order st = InitializeN order st := by
  have h1 : TransposeTiled order = TransposeN order := funext (TransposeTiled_eq order)
  have h2 : TransposeFF order = TransposeN order := funext (TransposeFF_eq order)
  refine ⟨TransposeTiled_eq order st, TransposeFF_eq order st, ?_, ?_,
    InitializeTiled_eq order st, InitializeFF_eq order st⟩
  · intro k
    rw [h1]
  · intro k
    rw [h2]

/-- C7: `Initialize` writes `A[i*order+j] = i*order+j` and `B[i*order+j] = 0`
for every in-range cell regardless of prior contents; it is idempotent, and
initialising after any number of transpose applications agrees (on every
program-accessible cell) with initialising fresh buffers. -/
theorem C7_initialize_idempotent (order : ℕ) (st st2 : St) :
    (∀ m, m < order * order →
      (InitializeN order st).A m = ((m : ℕ) : ℚ) ∧ (InitializeN order st).B m = 0) ∧
    InitializeN order (InitializeN order st) = InitializeN order st ∧
    (∀ k m, m < order * order →
      (InitializeN order (runK order k (InitializeN order st))).A m =
        (InitializeN order fresh).A m ∧
      (InitializeN order (runK order k (InitializeN order st))).B m =
        (InitializeN order fresh).B m) ∧
    (∀ m, m < order * order →
      (InitializeN order st).A m = (InitializeN order st2).A m ∧
      (InitializeN order st).B m = (InitializeN order st2).B m) := by
  refine ⟨?_, ?_, ?_, ?_⟩
  · intro m hm
    exact ⟨by rw [InitializeN_A, if_pos hm], by rw [InitializeN_B, if_pos hm]⟩
  · apply St.ext
    · funext m
      by_cases hm : m < order * order <;> simp [InitializeN_A, hm]
    · funext m
      by_cases hm : m < order * order <;> simp [InitializeN_B, hm]
  · intro k m hm
    constructor <;> simp [InitializeN_A, InitializeN_B, hm]
  · intro m hm
    constructor <;> simp [InitializeN_A, InitializeN_B, hm]

theorem C7_initialize_idempotent_witness :
    (InitializeN 1 fresh).A 0 = ((0 : ℕ) : ℚ) ∧ (InitializeN 1 fresh).B 0 = 0 :=
  (C7_initialize_idempotent 1 fresh fresh).1 0 (by norm_num)

/-- C9: under the accepted precondition `0 < order ≤ floor(sqrt(INT_MAX))`,
every index expression `i*order+j` and `j*order+i` with `i, j < order` lies
in `[0, order*order)` and `order*order` (hence every index value) fits in a
32-bit signed `int`, so all buffer accesses of `Initialize`, `Transpose` and
the validator are in bounds. -/
theorem C9_index_bounds (order i j : ℕ) (h0 : 0 < order)
    (hmax : (order : ℤ) ≤ maxOrder) (hi : i < order) (hj : j < order) :
    idx order i j < order * order ∧ idx order j i < order * order ∧
    (order : ℤ) * order ≤ intMax ∧ ((idx order i j : ℕ) : ℤ) < intMax := by
  have h1 : (order : ℤ) ≤ 46340 := hmax
  have h2 : (order : ℤ) * order ≤ 46340 * 46340 :=
    mul_le_mul h1 h1 (by positivity) (by norm_num)
  have h3 : (order : ℤ) * order ≤ intMax := le_trans h2 (by rw [intMax]; norm_num)
  have h4 : idx order i j < order * order := encode_lt order i j hi hj
  refine ⟨h4, encode_lt order j i hj hi, h3, ?_⟩
  have h5 : ((idx order i j : ℕ) : ℤ) < ((order * order : ℕ) : ℤ) := by exact_mod_cast h4
  calc ((idx order i j : ℕ) : ℤ) < ((order * order : ℕ) : ℤ) := h5
    _ ≤ intMax := by push_cast; exact h3

theorem C9_index_bounds_witness :
    idx 2 1 0 < 2 * 2 ∧ idx 2 0 1 < 2 * 2 ∧ (2 : ℤ) * 2 ≤ intMax ∧
      ((idx 2 1 0 : ℕ) : ℤ) < intMax :=
  C9_index_bounds 2 1 0 (by norm_num) (by rw [maxOrder]; norm_num) (by norm_num) (by norm_num)

/-! ### Flag parsing and program outcome -/

lemma hasSub_self_append (pat rest : List Char) : hasSub pat (pat ++ rest) = true := by
  have hpre : pat.isPrefixOf (pat ++ rest) = true := by
    rw [List.isPrefixOf_iff_prefix]
    exact List.prefix_append pat rest
  cases hp : pat ++ rest with
  | nil =>
    have hnil : pat = [] := by
      cases pat with
      | nil => rfl
      | cons c p => simp at hp
    subst hnil
    simp [hasSub]
  | cons c r =>
    rw [hp] at hpre
    simp [hasSub, hpre]

lemma sameCore_applyToken {c1 c2 : Config} (h : sameCore c1 c2) (s : List Char) :
    sameCore (applyToken c1 s) (applyToken c2 s) := by
  obtain ⟨h1, h2, h3, h4⟩ := h
  exact ⟨by simp [applyToken, h1], by simp [applyToken, h2],
         by simp [applyToken, h3], by simp [applyToken, h4]⟩

lemma sameCore_foldl {c1 c2 : Config} (h : sameCore c1 c2) (l : List (List Char)) :
    sameCore (l.foldl applyToken c1) (l.foldl applyToken c2) := by
  induction l generalizing c1 c2 with
  | nil => exact h
  | cons s l ih => exact ih (sameCore_applyToken h s)

lemma sameCore_fullRun {c1 c2 : Config} (h : sameCore c1 c2) (order iterations : ℕ) :
    fullRun c1 order iterations = fullRun c2 order iterations := by
  obtain ⟨h1, h2, h3, h4⟩ := h
  have hs : stepOf c1 order = stepOf c2 order := by rw [stepOf, stepOf, h3, h4]
  have hi : initOf c1 order = initOf c2 order := by rw [initOf, initOf, h3, h4]
  rw [fullRun, fullRun, hs, hi]

/-! ### Claim theorems: configuration, validation, exit paths -/

/-- C4: with fewer than two positional arguments, `iterations < 1`,
`order ≤ 0`, or `order > floor(sqrt(INT_MAX))`, the program leaves through
the argument-checking `catch` with a non-empty error message and exit status
1: the result is an `earlyExit`, which carries no buffer state — `A` and `B`
are never created and no kernel computation happens. -/
theorem C4_invalid_args (nPos : ℕ) (iterations order : ℤ) (flags : List (List Char))
    (h : nPos < 2 ∨ iterations < 1 ∨ order ≤ 0 ∨ maxOrder < order) :
    ∃ msg, mainRun nPos iterations order flags = MainResult.earlyExit msg 1 ∧ msg ≠ [] := by
  rw [mainRun]
  by_cases h1 : nPos < 2
  · rw [if_pos h1]
    exact ⟨_, rfl, by decide⟩
  · rw [if_neg h1]
    by_cases h2 : iterations < 1
    · rw [if_pos h2]
      exact ⟨_, rfl, by decide⟩
    · rw [if_neg h2]
      by_cases h3 : order ≤ 0
      · rw [if_pos h3]
        exact ⟨_, rfl, by decide⟩
      · rw [if_neg h3]
        have h4 : maxOrder < order := by tauto
        rw [if_pos h4]
        exact ⟨_, rfl, by decide⟩

theorem C4_invalid_args_witness :
    ∃ msg, mainRun 1 5 10 [] = MainResult.earlyExit msg 1 ∧ msg ≠ [] :=
  C4_invalid_args 1 5 10 [] (Or.inl (by norm_num))

/-- C5: the run validates exactly when the aggregate error is strictly below
the threshold `1e-8`; on pass the program reports "Solution validates" and
exits with code 0, on failure it reports the error message together with the
measured aggregate error and the threshold and exits with code 1. -/
theorem C5_validation (e : ℚ) :
    ((validate e).1 = 0 ↔ e < epsilon) ∧
    (e < epsilon → validate e = (0, "Solution validates".toList, none)) ∧
    (¬ e < epsilon →
      validate e = (1, "ERROR: Aggregate squared error exceeds threshold".toList,
        some (e, epsilon))) := by
  refine ⟨?_, ?_, ?_⟩
  · by_cases h : e < epsilon <;> simp [validate, h]
  · intro h
    rw [validate, if_pos h]
  · intro h
    rw [validate, if_neg h]

theorem C5_validation_witness : validate 0 = (0, "Solution validates".toList, none) :=
  (C5_validation 0).2.1 (by rw [epsilon]; norm_num)

/-- C6: the permute flag has no effect on behaviour: inserting `permute=ij`
or `permute=ji` anywhere on the command line changes neither the final
buffers nor the validation outcome or exit code, and parsing a permute token
touches only the echoed `use_permute` field. -/
theorem C6_permute_no_effect (ts1 ts2 : List (List Char)) (order iterations : ℕ) :
    fullRun (parseFlags (ts1 ++ ("permute=ij".toList :: ts2))) order iterations =
      fullRun (parseFlags (ts1 ++ ts2)) order iterations ∧
    fullRun (parseFlags (ts1 ++ ("permute=ji".toList :: ts2))) order iterations =
      fullRun (parseFlags (ts1 ++ ts2)) order iterations ∧
    (∀ cfg : Config, applyToken cfg ("permute=ij".toList) =
      { cfg with use_permute := "ij".toList }) ∧
    (∀ cfg : Config, applyToken cfg ("permute=ji".toList) =
      { cfg with use_permute := "ji".toList }) := by
  have hij : ∀ cfg : Config, applyToken cfg ("permute=ij".toList) =
      { cfg with use_permute := "ij".toList } := fun cfg => rfl
  have hji : ∀ cfg : Config, applyToken cfg ("permute=ji".toList) =
      { cfg with use_permute := "ji".toList } := fun cfg => rfl
  have cij : ∀ cfg : Config, sameCore (applyToken cfg ("permute=ij".toList)) cfg := by
    intro cfg
    rw [hij cfg]
    exact ⟨rfl, rfl, rfl, rfl⟩
  have cji : ∀ cfg : Config, sameCore (applyToken cfg ("permute=ji".toList)) cfg := by
    intro cfg
    rw [hji cfg]
    exact ⟨rfl, rfl, rfl, rfl⟩
  refine ⟨?_, ?_, hij, hji⟩
  · refine sameCore_fullRun ?_ order iterations
    rw [parseFlags, parseFlags, List.foldl_append, List.foldl_append, List.foldl_cons]
    exact sameCore_foldl (cij _) ts2
  · refine sameCore_fullRun ?_ order iterations
    rw [parseFlags, parseFlags, List.foldl_append, List.foldl_append, List.foldl_cons]
    exact sameCore_foldl (cji _) ts2

/-- C8: with no variant flags the resolved configuration is `for=seq`, simd
enabled, nested enabled, tiled disabled; and a token containing none of the
five recognised key substrings leaves the configuration unchanged (no
error — unrecognised flags are silently ignored). -/
theorem C8_defaults_and_ignored :
    parseFlags [] = defaultConfig ∧
    defaultConfig.use_for = "seq".toList ∧ defaultConfig.use_simd = true ∧
    defaultConfig.use_nested = true ∧ defaultConfig.use_tiled = false ∧
    (∀ (cfg : Config) (s : List Char),
      hasSub ("for=".toList) s = false → hasSub ("simd=".toList) s = false →
      hasSub ("nested=".toList) s = false → hasSub ("tiled=".toList) s = false →
      hasSub ("permute=".toList) s = false → applyToken cfg s = cfg) := by
  refine ⟨rfl, rfl, rfl, rfl, rfl, ?_⟩
  intro cfg s h1 h2 h3 h4 h5
  have e1 : forUpdate cfg.use_for s = cfg.use_for := by
    rw [forUpdate]
    simp only [h1]
    simp
  have e2 : simdUpdate cfg.use_simd s = cfg.use_simd := by
    rw [simdUpdate]
    simp only [h2]
    simp
  have e3 : nestedUpdate cfg.use_nested s = cfg.use_nested := by
    rw [nestedUpdate]
    simp only [h3]
    simp
  have e4 : tiledUpdate cfg.use_tiled s = cfg.use_tiled := by
    rw [tiledUpdate]
    simp only [h4]
    simp
  have e5 : permuteUpdate cfg.use_permute s = cfg.use_permute := by
    rw [permuteUpdate]
    simp only [h5]
    simp
  rw [applyToken, e1, e2, e3, e4, e5]

theorem C8_defaults_and_ignored_witness :
    applyToken defaultConfig ("bogus".toList) = defaultConfig :=
  C8_defaults_and_ignored.2.2.2.2.2 defaultConfig ("bogus".toList)
    (by decide) (by decide) (by decide) (by decide) (by decide)

/-- C10 counterexample: the claim that `for=` "silently falls back to the
sequential backend for any value other than omp/openmp/tbb" is false as
stated: after `for=omp for=bogus` the parsed backend is still `omp`, not
`seq` — an unrecognised value leaves the previous selection in place rather
than falling back. -/
theorem C10_counterexample :
    (parseFlags ["for=omp".toList, "for=bogus".toList]).use_for = "omp".toList ∧
    (parseFlags ["for=omp".toList, "for=bogus".toList]).use_for ≠ "seq".toList := by
  constructor <;> decide

/-- C10 (amended): flag-value parsing is one-directional and permissive:
`for=` accepts `openmp` as a synonym for `omp`, and any other value leaves
the backend selection unchanged (hence the sequential default persists when
no earlier token selected a backend); `simd=n`/`simd=np` disable SIMD and no
value (including `simd=y`) re-enables it, so `simd=y` after `simd=n` leaves
it disabled; `nested=n`/`nested=no` only disable; `tiled=y`/`tiled=yes` only
enable; every other value leaves the current setting unchanged. -/
theorem C10_flag_parsing_amended (cfg : Config) (v : List Char) :
    (applyToken cfg ("for=".toList ++ "openmp".toList)).use_for = "omp".toList ∧
    (v ≠ "omp".toList → v ≠ "openmp".toList → v ≠ "tbb".toList →
      (applyToken cfg ("for=".toList ++ v)).use_for = cfg.use_for) ∧
    (applyToken cfg ("simd=n".toList)).use_simd = false ∧
    (applyToken cfg ("simd=np".toList)).use_simd = false ∧
    (v ≠ "n".toList → v ≠ "np".toList →
      (applyToken cfg ("simd=".toList ++ v)).use_simd = cfg.use_simd) ∧
    (applyToken (applyToken cfg ("simd=n".toList)) ("simd=y".toList)).use_simd = false ∧
    (applyToken cfg ("nested=n".toList)).use_nested = false ∧
    (applyToken cfg ("nested=no".toList)).use_nested = false ∧
    (v ≠ "n".toList → v ≠ "no".toList →
      (applyToken cfg ("nested=".toList ++ v)).use_nested = cfg.use_nested) ∧
    (applyToken cfg ("tiled=y".toList)).use_tiled = true ∧
    (applyToken cfg ("tiled=yes".toList)).use_tiled = true ∧
    (v ≠ "y".toList → v ≠ "yes".toList →
      (applyToken cfg ("tiled=".toList ++ v)).use_tiled = cfg.use_tiled) := by
  refine ⟨rfl, ?_, rfl, rfl, ?_, rfl, rfl, rfl, ?_, rfl, rfl, ?_⟩
  · intro hv1 hv2 hv3
    have hsub : hasSub ("for=".toList) ("for=".toList ++ v) = true :=
      hasSub_self_append _ _
    have hdrop : (("for=".toList) ++ v).drop 4 = v := by simp
    simp only [applyToken, forUpdate, hsub, if_true, hdrop]
    simp [show v ≠ ['o', 'm', 'p'] from hv1, show v ≠ ['o', 'p', 'e', 'n', 'm', 'p'] from hv2,
      show v ≠ ['t', 'b', 'b'] from hv3]
  · intro hv1 hv2
    have hsub : hasSub ("simd=".toList) ("simd=".toList ++ v) = true :=
      hasSub_self_append _ _
    have hdrop : (("simd=".toList) ++ v).drop 5 = v := by simp
    simp only [applyToken, simdUpdate, hsub, if_true, hdrop]
    simp [show v ≠ ['n'] from hv1, show v ≠ ['n', 'p'] from hv2]
  · intro hv1 hv2
    have hsub : hasSub ("nested=".toList) ("nested=".toList ++ v) = true :=
      hasSub_self_append _ _
    have hdrop : (("nested=".toList) ++ v).drop 7 = v := by simp
    simp only [applyToken, nestedUpdate, hsub, if_true, hdrop]
    simp [show v ≠ ['n'] from hv1, show v ≠ ['n', 'o'] from hv2]
  · intro hv1 hv2
    have hsub : hasSub ("tiled=".toList) ("tiled=".toList ++ v) = true :=
      hasSub_self_append _ _
    have hdrop : (("tiled=".toList) ++ v).drop 6 = v := by simp
    simp only [applyToken, tiledUpdate, hsub, if_true, hdrop]
    simp [show v ≠ ['y'] from hv1, show v ≠ ['y', 'e', 's'] from hv2]

theorem C10_flag_parsing_amended_witness :
    (applyToken defaultConfig ("for=".toList ++ "zzz".toList)).use_for =
      defaultConfig.use_for :=
  (C10_flag_parsing_amended defaultConfig ("zzz".toList)).2.1
    (by decide) (by decide) (by decide)
